import Mathlib

/-!
Verification of the binned spectral likelihood and forward-folding engine
described by the repository documentation (threeML live docs).  The notebooks
under the repository only call the library (SpectrumLike, DispersionSpectrumLike,
OGIPLike, the Significance module, the Rebinner); the library implementation is
not part of the repository source, so every operation below is modelled from the
specification text and settled against that model.
-/

namespace SpecModel

/-- Modelled from the spec: the convention that a zero count contributes no
logarithmic term, i.e. 0 * log(0) is treated as 0 (spec section 4.2 edge-case
policy).  For a nonzero first argument this is literally x * log y. -/
noncomputable def xlogy (x y : ℝ) : ℝ :=
  if x = 0 then 0 else x * Real.log y

/-- Modelled from the spec: the per-channel Poisson log-likelihood term
(spec section 4.2), counts * log(predicted) - predicted with the 0 * log(0) = 0
convention, dropping the model-independent factorial constant.  The library code
implementing the likelihood selector is not in the repository source. -/
noncomputable def poisson_log_like (observed predicted : ℝ) : ℝ :=
  xlogy observed predicted - predicted

/-- Modelled from the spec: the per-channel Poisson term of a spectrum with a
background estimate: the predicted total counts are the predicted source counts
plus the predicted background counts (spec section 4.2, Poisson rows). -/
noncomputable def poisson_log_like_with_bkg (observed bkgPredicted srcPredicted : ℝ) : ℝ :=
  poisson_log_like observed (srcPredicted + bkgPredicted)

/-- Modelled from the spec: in the Poisson-total, no-background-model (profile
likelihood) configuration the per-channel background rate estimate is the
unconstrained maximizer (observed - predicted)/exposure of the per-channel
Poisson profile likelihood, clamped to zero (spec sections 4.2 row one, 7 and 9:
explicit clamp-to-zero policy).  The library code is not in the repository
source. -/
noncomputable def profile_background_estimate (observed predicted exposure : ℝ) : ℝ :=
  max 0 ((observed - predicted) / exposure)

theorem xlogy_zero_left (y : ℝ) : xlogy 0 y = 0 := by
  simp [xlogy]

theorem xlogy_of_ne (x y : ℝ) (hx : x ≠ 0) : xlogy x y = x * Real.log y := by
  simp [xlogy, hx]

/-- C1: for an active Poisson channel, the log-likelihood term uses the limiting
convention 0 * log(0) = 0: with zero observed counts and zero background counts
the term is exactly minus the predicted source counts, and with predicted total
counts exactly zero but nonzero observed counts the term is still the limiting
Poisson log-pmf counts * log(predicted) - predicted, a well-defined real number
(no numerical error). -/
theorem poisson_zero_count_conventions (observed bkgPredicted srcPredicted : ℝ) :
    (observed = 0 → bkgPredicted = 0 →
      poisson_log_like_with_bkg observed bkgPredicted srcPredicted = -srcPredicted) ∧
    (srcPredicted + bkgPredicted = 0 → observed ≠ 0 →
      poisson_log_like_with_bkg observed bkgPredicted srcPredicted =
        observed * Real.log (srcPredicted + bkgPredicted) - (srcPredicted + bkgPredicted)) := by
  constructor
  · intro h0 hb
    simp [poisson_log_like_with_bkg, poisson_log_like, xlogy, h0, hb]
  · intro _ hobs
    simp [poisson_log_like_with_bkg, poisson_log_like, xlogy, hobs]

/-- Witness for C1 at concrete inputs: a channel with zero observed and zero
background counts and predicted source counts 5 contributes exactly -5, and a
channel with 3 observed counts and zero predicted counts yields the limiting
log-pmf value. -/
theorem poisson_zero_count_conventions_witness :
    poisson_log_like_with_bkg 0 0 5 = -5 ∧
    poisson_log_like_with_bkg 3 0 0 = 3 * Real.log ((0 : ℝ) + 0) - ((0 : ℝ) + 0) :=
  ⟨(poisson_zero_count_conventions 0 0 5).1 rfl rfl,
   (poisson_zero_count_conventions 3 0 0).2 (by norm_num) (by norm_num)⟩

/-- C2: in the Poisson-total, no-background-model configuration the
profile-derived per-channel background rate estimate is clamped to zero: it is
never negative, however far the predicted source counts exceed the observed
total counts, so the logarithm argument predicted + exposure * estimate of the
profile likelihood is never negative. -/
theorem profile_background_estimate_nonneg (observed predicted exposure : ℝ) :
    0 ≤ profile_background_estimate observed predicted exposure ∧
    (0 ≤ predicted → 0 ≤ exposure →
      0 ≤ predicted + exposure * profile_background_estimate observed predicted exposure) := by
  refine ⟨le_max_left _ _, ?_⟩
  intro hp he
  have h0 : 0 ≤ exposure * profile_background_estimate observed predicted exposure :=
    mul_nonneg he (le_max_left _ _)
  linarith

/-- Witness for C2 at a concrete input where the model overshoots the data by a
wide margin: zero observed counts against 1000 predicted counts with unit
exposure still gives a nonnegative background estimate and a nonnegative
logarithm argument. -/
theorem profile_background_estimate_nonneg_witness :
    0 ≤ profile_background_estimate 0 1000 1 ∧
    0 ≤ (1000 : ℝ) + 1 * profile_background_estimate 0 1000 1 :=
  ⟨(profile_background_estimate_nonneg 0 1000 1).1,
   (profile_background_estimate_nonneg 0 1000 1).2 (by norm_num) (by norm_num)⟩

/-- Modelled from the spec: the greedy left-to-right grouping pass of the
Rebinner (spec section 4.3): accumulate adjacent channels into the current group
and close the group as soon as its running count total reaches min_counts;
returns the closed groups together with the trailing channels that never reached
the threshold.  The library code is not in the repository source. -/
def rebinAux (k : ℕ) (counts acc : List ℕ) : List (List ℕ) × List ℕ :=
  match counts with
  | [] => ([], acc)
  | c :: rest =>
    if k ≤ (acc ++ [c]).sum then
      ((acc ++ [c]) :: (rebinAux k rest []).1, (rebinAux k rest []).2)
    else rebinAux k rest (acc ++ [c])

/-- Modelled from the spec: append the trailing short run of channels to the
last previously closed group (spec section 4.3: the final group may fall short
and is merged into the previous group rather than left under threshold). -/
def appendToLast (gs : List (List ℕ)) (left : List ℕ) : List (List ℕ) :=
  match gs with
  | [] => [left]
  | [g] => [g ++ left]
  | g :: g2 :: rest => g :: appendToLast (g2 :: rest) left

/-- Modelled from the spec: the full grouping produced by rebinning on a counts
vector with threshold min_counts: greedy left-to-right closing, then the
leftover channels are merged into the previous valid group (or form the single
group when no group ever reached the threshold). -/
def rebinGroups (k : ℕ) (v : List ℕ) : List (List ℕ) :=
  let r := rebinAux k v []
  if r.2.isEmpty then r.1 else appendToLast r.1 r.2

/-- Modelled from the spec: the plugin state relevant to channel selection and
rebinning: per-channel total counts, background counts, the active-channel
mask, and the optionally stored rebinning grouping (kept as the list of group
sizes, i.e. the channel-to-group mapping of spec section 4.3). -/
structure PluginState where
  counts : List ℕ
  background_counts : List ℕ
  mask : List Bool
  rebinner : Option (List ℕ)
deriving DecidableEq

/-- Modelled from the spec: rebin_on_source (rebin_on_total in the spec) stores
the grouping derived from the total counts without mutating the spectrum. -/
def rebin_on_source (k : ℕ) (st : PluginState) : PluginState :=
  { st with rebinner := some ((rebinGroups k st.counts).map List.length) }

/-- Modelled from the spec: rebin_on_background stores the grouping derived
from the background counts without mutating the spectrum. -/
def rebin_on_background (k : ℕ) (st : PluginState) : PluginState :=
  { st with rebinner := some ((rebinGroups k st.background_counts).map List.length) }

/-- Modelled from the spec: remove_rebinning discards the stored grouping and
restores the ungrouped view; the underlying spectrum was never mutated. -/
def remove_rebinning (st : PluginState) : PluginState :=
  { st with rebinner := none }

/-- Split a list into consecutive chunks of the given sizes. -/
def chunkBySizes {α : Type} : List ℕ → List α → List (List α)
  | [], _ => []
  | n :: ns, xs => xs.take n :: chunkBySizes ns (xs.drop n)

/-- The view of a spectrum exposed to the likelihood: number of channels,
per-channel counts and the active-channel mask, after any stored rebinning. -/
structure SpectrumView where
  n_channels : ℕ
  view_counts : List ℕ
  view_mask : List Bool
deriving DecidableEq

/-- Modelled from the spec: the exposed view applies the stored grouping, if
any, to counts and mask; otherwise it is the raw per-channel data. -/
def exposed_view (st : PluginState) : SpectrumView :=
  match st.rebinner with
  | none => ⟨st.counts.length, st.counts, st.mask⟩
  | some sizes =>
      ⟨sizes.length, (chunkBySizes sizes st.counts).map List.sum,
       (chunkBySizes sizes st.mask).map (fun g => g.all id)⟩

theorem rebinAux_flatten (k : ℕ) (counts : List ℕ) :
    ∀ acc : List ℕ,
      ((rebinAux k counts acc).1.flatten ++ (rebinAux k counts acc).2 = acc ++ counts) := by
  induction counts with
  | nil => intro acc; simp [rebinAux]
  | cons c rest ih =>
    intro acc
    by_cases h : k ≤ (acc ++ [c]).sum
    · have h1 := ih []
      simp only [rebinAux, if_pos h, List.flatten_cons, List.append_assoc]
      rw [h1]
      simp
    · have h1 := ih (acc ++ [c])
      simp only [rebinAux, if_neg h]
      rw [h1]
      simp

theorem rebinAux_mem_sum (k : ℕ) (counts : List ℕ) :
    ∀ acc g, g ∈ (rebinAux k counts acc).1 → k ≤ g.sum := by
  induction counts with
  | nil => intro acc g hg; simp [rebinAux] at hg
  | cons c rest ih =>
    intro acc g hg
    by_cases h : k ≤ (acc ++ [c]).sum
    · simp only [rebinAux, if_pos h, List.mem_cons] at hg
      rcases hg with rfl | hg
      · exact h
      · exact ih [] g hg
    · simp only [rebinAux, if_neg h] at hg
      exact ih (acc ++ [c]) g hg

theorem appendToLast_flatten (gs : List (List ℕ)) (left : List ℕ) :
    (appendToLast gs left).flatten = gs.flatten ++ left := by
  match gs with
  | [] => simp [appendToLast]
  | [g] => simp [appendToLast]
  | g :: g2 :: rest =>
    have ih := appendToLast_flatten (g2 :: rest) left
    simp [appendToLast, ih]

theorem appendToLast_mem_sum (k : ℕ) (gs : List (List ℕ)) (left : List ℕ)
    (hall : ∀ g0 ∈ gs, k ≤ g0.sum) (hne : gs ≠ []) :
    ∀ g ∈ appendToLast gs left, k ≤ g.sum := by
  match gs with
  | [] => exact absurd rfl hne
  | [g0] =>
    intro g hg
    simp only [appendToLast, List.mem_singleton] at hg
    subst hg
    have := hall g0 (List.mem_singleton.mpr rfl)
    simp only [List.sum_append]
    omega
  | g0 :: g1 :: rest =>
    intro g hg
    simp only [appendToLast, List.mem_cons] at hg
    rcases hg with rfl | hg
    · exact hall g (List.mem_cons_self _ _)
    · exact appendToLast_mem_sum k (g1 :: rest) left
        (fun g2 hg2 => hall g2 (List.mem_cons_of_mem _ hg2)) (by simp) g hg

theorem rebinGroups_flatten (k : ℕ) (v : List ℕ) :
    (rebinGroups k v).flatten = v := by
  have h1 := rebinAux_flatten k v []
  by_cases h : (rebinAux k v []).2.isEmpty
  · simp only [rebinGroups, if_pos h]
    rw [List.isEmpty_iff] at h
    rw [h, List.append_nil] at h1
    simpa using h1
  · simp only [rebinGroups, if_neg h]
    rw [appendToLast_flatten]
    simpa using h1

theorem rebinGroups_sum (k : ℕ) (v : List ℕ) :
    (∀ g ∈ rebinGroups k v, k ≤ g.sum) ∨ rebinGroups k v = [v] := by
  by_cases h : (rebinAux k v []).2.isEmpty
  · left
    intro g hg
    simp only [rebinGroups, if_pos h] at hg
    exact rebinAux_mem_sum k v [] g hg
  · by_cases h2 : (rebinAux k v []).1 = []
    · right
      have h1 := rebinAux_flatten k v []
      rw [h2] at h1
      simp only [List.flatten_nil, List.nil_append] at h1
      have hg : rebinGroups k v = appendToLast (rebinAux k v []).1 (rebinAux k v []).2 := by
        simp only [rebinGroups, if_neg h]
      rw [hg, h2, h1]
      rfl
    · left
      intro g hg
      simp only [rebinGroups, if_neg h] at hg
      exact appendToLast_mem_sum k (rebinAux k v []).1 (rebinAux k v []).2
        (fun g0 hg0 => rebinAux_mem_sum k v [] g0 hg0) h2 g hg

/-- C4: for every counts vector with nonzero total and every threshold k, the
grouping produced by rebinning merges adjacent channels left to right (the
groups are contiguous and cover every channel exactly once, in order), and
every group's count total is at least k, except in the degenerate case where
the whole spectrum falls short of k and forms a single group; the trailing
short run is merged into the previous valid group rather than left below
threshold.  rebin_on_source stores exactly this grouping of the total counts
and rebin_on_background stores it for the background counts. -/
theorem rebin_groups_threshold (k : ℕ) (v : List ℕ) (h : 0 < v.sum) :
    (rebinGroups k v).flatten = v ∧
    ((∀ g ∈ rebinGroups k v, k ≤ g.sum) ∨ rebinGroups k v = [v]) ∧
    (∀ st : PluginState,
      (rebin_on_source k st).rebinner = some ((rebinGroups k st.counts).map List.length) ∧
      (rebin_on_background k st).rebinner =
        some ((rebinGroups k st.background_counts).map List.length)) :=
  ⟨rebinGroups_flatten k v, rebinGroups_sum k v, fun _ => ⟨rfl, rfl⟩⟩

/-- Witness for C4: the vector [3, 1, 2, 0, 5] with threshold 4 groups into
[[3, 1], [2, 0, 5]]; both groups reach the threshold and together they cover
the channels exactly once in order. -/
theorem rebin_groups_threshold_witness :
    0 < List.sum [3, 1, 2, 0, 5] ∧
    (rebinGroups 4 [3, 1, 2, 0, 5]).flatten = [3, 1, 2, 0, 5] ∧
    ((∀ g ∈ rebinGroups 4 [3, 1, 2, 0, 5], 4 ≤ g.sum) ∨
      rebinGroups 4 [3, 1, 2, 0, 5] = [[3, 1, 2, 0, 5]]) ∧
    (∀ st : PluginState,
      (rebin_on_source 4 st).rebinner =
        some ((rebinGroups 4 st.counts).map List.length) ∧
      (rebin_on_background 4 st).rebinner =
        some ((rebinGroups 4 st.background_counts).map List.length)) :=
  ⟨by decide, rebin_groups_threshold 4 [3, 1, 2, 0, 5] (by decide)⟩

/-- C3: for every spectrum without an active rebinning and every threshold k,
remove_rebinning after rebin_on_source (rebin_on_total in the spec) restores
the exposed view exactly (same number of channels, same mask, same per-channel
counts); rebinning never mutates the stored spectrum (counts, background
counts and mask are unchanged), remove_rebinning is idempotent, and
remove_rebinning is a no-op on the exposed view of an unrebinned spectrum. -/
theorem remove_rebinning_round_trip (k : ℕ) (st : PluginState) (h : st.rebinner = none) :
    exposed_view (remove_rebinning (rebin_on_source k st)) = exposed_view st ∧
    (rebin_on_source k st).counts = st.counts ∧
    (rebin_on_source k st).background_counts = st.background_counts ∧
    (rebin_on_source k st).mask = st.mask ∧
    remove_rebinning (remove_rebinning (rebin_on_source k st)) =
      remove_rebinning (rebin_on_source k st) ∧
    exposed_view (remove_rebinning st) = exposed_view st := by
  refine ⟨?_, rfl, rfl, rfl, rfl, ?_⟩
  · simp [exposed_view, remove_rebinning, rebin_on_source, h]
  · simp [exposed_view, remove_rebinning, h]

/-- Witness for C3 on a concrete three-channel spectrum with threshold 2. -/
theorem remove_rebinning_round_trip_witness :
    (PluginState.mk [1, 2, 3] [0, 1, 0] [true, true, false] none).rebinner = none ∧
    (exposed_view (remove_rebinning (rebin_on_source 2
        (PluginState.mk [1, 2, 3] [0, 1, 0] [true, true, false] none))) =
      exposed_view (PluginState.mk [1, 2, 3] [0, 1, 0] [true, true, false] none) ∧
    (rebin_on_source 2 (PluginState.mk [1, 2, 3] [0, 1, 0] [true, true, false] none)).counts =
      (PluginState.mk [1, 2, 3] [0, 1, 0] [true, true, false] none).counts ∧
    (rebin_on_source 2
        (PluginState.mk [1, 2, 3] [0, 1, 0] [true, true, false] none)).background_counts =
      (PluginState.mk [1, 2, 3] [0, 1, 0] [true, true, false] none).background_counts ∧
    (rebin_on_source 2 (PluginState.mk [1, 2, 3] [0, 1, 0] [true, true, false] none)).mask =
      (PluginState.mk [1, 2, 3] [0, 1, 0] [true, true, false] none).mask ∧
    remove_rebinning (remove_rebinning (rebin_on_source 2
        (PluginState.mk [1, 2, 3] [0, 1, 0] [true, true, false] none))) =
      remove_rebinning (rebin_on_source 2
        (PluginState.mk [1, 2, 3] [0, 1, 0] [true, true, false] none)) ∧
    exposed_view (remove_rebinning (PluginState.mk [1, 2, 3] [0, 1, 0] [true, true, false] none)) =
      exposed_view (PluginState.mk [1, 2, 3] [0, 1, 0] [true, true, false] none)) :=
  ⟨rfl, remove_rebinning_round_trip 2
    (PluginState.mk [1, 2, 3] [0, 1, 0] [true, true, false] none) rfl⟩

/-- Modelled from the spec: one endpoint of a selection string passed to
set_active_measurements, either an energy (in the units of the channel
boundaries) or a channel index (the cN form). -/
inductive Bound where
  | energy (e : ℚ)
  | channel (c : ℕ)
deriving DecidableEq

/-- Modelled from the spec: a parsed selection string: either the literal
string all, or a range between two bounds. -/
inductive SelectionSpec where
  | all
  | range (lo hi : Bound)
deriving DecidableEq

/-- Modelled from the spec: resolve an energy to the channel containing it
(the channel whose interval from its lower to its upper boundary contains the
energy; the first such channel). -/
def channelOfEnergy (ebounds : List (ℚ × ℚ)) (e : ℚ) : ℕ :=
  match ebounds with
  | [] => 0
  | p :: rest => if p.1 ≤ e ∧ e < p.2 then 0 else channelOfEnergy rest e + 1

/-- Modelled from the spec: an energy endpoint is resolved to the channel
containing that energy; a channel endpoint is used as given. -/
def resolveBound (ebounds : List (ℚ × ℚ)) : Bound → ℕ
  | .energy e => channelOfEnergy ebounds e
  | .channel c => c

/-- Modelled from the spec: whether channel i is covered by a parsed selection:
the literal all covers every channel, and a range covers the channels between
its resolved endpoints inclusively. -/
def inSelection (ebounds : List (ℚ × ℚ)) (sel : SelectionSpec) (i : ℕ) : Bool :=
  match sel with
  | .all => true
  | .range lo hi =>
      decide (resolveBound ebounds lo ≤ i) && decide (i ≤ resolveBound ebounds hi)

/-- Apply an index-aware update to every entry of a mask, keeping its length. -/
def markMask (f : ℕ → Bool → Bool) : ℕ → List Bool → List Bool
  | _, [] => []
  | i, b :: rest => f i b :: markMask f (i + 1) rest

/-- Modelled from the spec: a select call unions the channels covered by the
parsed selection into the existing active-channel mask (for the literal all
this makes every channel active, i.e. resets the mask to fully active). -/
def select (ebounds : List (ℚ × ℚ)) (sel : SelectionSpec) (mask : List Bool) : List Bool :=
  markMask (fun i b => b || inSelection ebounds sel i) 0 mask

/-- Modelled from the spec: an exclude call subtracts the channels covered by
the parsed selection from the existing active-channel mask. -/
def exclude (ebounds : List (ℚ × ℚ)) (sel : SelectionSpec) (mask : List Bool) : List Bool :=
  markMask (fun i b => b && !(inSelection ebounds sel i)) 0 mask

/-- Modelled from the spec: one call in an interleaved sequence of selections
and exclusions. -/
inductive SelectionCall where
  | selectCall (sel : SelectionSpec)
  | excludeCall (sel : SelectionSpec)

/-- Apply one selection or exclusion call to the mask. -/
def applyCall (ebounds : List (ℚ × ℚ)) (c : SelectionCall) (mask : List Bool) : List Bool :=
  match c with
  | .selectCall s => select ebounds s mask
  | .excludeCall s => exclude ebounds s mask

/-- Apply an arbitrary interleaved sequence of selection and exclusion calls,
left to right. -/
def applyCalls (ebounds : List (ℚ × ℚ)) (cs : List SelectionCall) (mask : List Bool) :
    List Bool :=
  cs.foldl (fun m c => applyCall ebounds c m) mask

/-- The channels a call covers (and hence may change). -/
def callTouches (ebounds : List (ℚ × ℚ)) (c : SelectionCall) (i : ℕ) : Bool :=
  match c with
  | .selectCall s => inSelection ebounds s i
  | .excludeCall s => inSelection ebounds s i

theorem markMask_length (f : ℕ → Bool → Bool) :
    ∀ (mask : List Bool) (i : ℕ), (markMask f i mask).length = mask.length := by
  intro mask
  induction mask with
  | nil => intro i; rfl
  | cons b rest ih => intro i; simp [markMask, ih]

theorem markMask_getD (f : ℕ → Bool → Bool) :
    ∀ (mask : List Bool) (i j : ℕ), j < mask.length →
      (markMask f i mask).getD j false = f (i + j) (mask.getD j false) := by
  intro mask
  induction mask with
  | nil => intro i j hj; simp at hj
  | cons b rest ih =>
    intro i j hj
    match j with
    | 0 => simp [markMask]
    | j + 1 =>
      have hj2 : j < rest.length := by simpa using hj
      have := ih (i + 1) j hj2
      have harith : i + 1 + j = i + (j + 1) := by omega
      simpa [markMask, harith] using this

theorem select_length (ebounds : List (ℚ × ℚ)) (sel : SelectionSpec) (mask : List Bool) :
    (select ebounds sel mask).length = mask.length :=
  markMask_length _ mask 0

theorem exclude_length (ebounds : List (ℚ × ℚ)) (sel : SelectionSpec) (mask : List Bool) :
    (exclude ebounds sel mask).length = mask.length :=
  markMask_length _ mask 0

theorem applyCall_length (ebounds : List (ℚ × ℚ)) (c : SelectionCall) (mask : List Bool) :
    (applyCall ebounds c mask).length = mask.length := by
  cases c with
  | selectCall s => exact select_length ebounds s mask
  | excludeCall s => exact exclude_length ebounds s mask

theorem applyCalls_untouched (ebounds : List (ℚ × ℚ)) (cs : List SelectionCall) :
    ∀ (mask : List Bool) (i : ℕ), i < mask.length →
      (∀ c ∈ cs, callTouches ebounds c i = false) →
      (applyCalls ebounds cs mask).getD i false = mask.getD i false := by
  induction cs with
  | nil => intro mask i hi hall; rfl
  | cons c cs' ih =>
    intro mask i hi hall
    have hstep : (applyCall ebounds c mask).getD i false = mask.getD i false := by
      have hc : callTouches ebounds c i = false := hall c (List.mem_cons_self _ _)
      cases c with
      | selectCall s =>
        have := markMask_getD (fun i b => b || inSelection ebounds s i) mask 0 i hi
        simp only [callTouches] at hc
        simpa [applyCall, select, hc] using this
      | excludeCall s =>
        have := markMask_getD (fun i b => b && !(inSelection ebounds s i)) mask 0 i hi
        simp only [callTouches] at hc
        simpa [applyCall, exclude, hc] using this
    have hi2 : i < (applyCall ebounds c mask).length := by
      rw [applyCall_length]; exact hi
    have htail := ih (applyCall ebounds c mask) i hi2
      (fun c2 hc2 => hall c2 (List.mem_cons_of_mem _ hc2))
    calc (applyCalls ebounds (c :: cs') mask).getD i false
        = (applyCalls ebounds cs' (applyCall ebounds c mask)).getD i false := rfl
      _ = (applyCall ebounds c mask).getD i false := htail
      _ = mask.getD i false := hstep

/-- C5: selection and exclusion calls are cumulative.  A select call of a range
unions the covered channels into the existing mask (covered channels become
active, all others keep their previous state); an exclude call subtracts them
(covered channels become inactive, all others keep their previous state); a
selection of the literal all resets the mask to fully active; and across an
arbitrary interleaved sequence of calls, a channel covered by no call keeps its
state, so no call other than the literal all resets the mask. -/
theorem selection_calls_cumulative (ebounds : List (ℚ × ℚ)) (lo hi : Bound)
    (mask : List Bool) (i : ℕ) (cs : List SelectionCall) (h : i < mask.length) :
    (select ebounds (SelectionSpec.range lo hi) mask).getD i false =
      (mask.getD i false || inSelection ebounds (SelectionSpec.range lo hi) i) ∧
    (exclude ebounds (SelectionSpec.range lo hi) mask).getD i false =
      (mask.getD i false && !(inSelection ebounds (SelectionSpec.range lo hi) i)) ∧
    (select ebounds SelectionSpec.all mask).getD i false = true ∧
    ((∀ c ∈ cs, callTouches ebounds c i = false) →
      (applyCalls ebounds cs mask).getD i false = mask.getD i false) := by
  refine ⟨?_, ?_, ?_, applyCalls_untouched ebounds cs mask i h⟩
  · simpa [select] using
      markMask_getD (fun i b => b || inSelection ebounds (SelectionSpec.range lo hi) i) mask 0 i h
  · simpa [exclude] using
      markMask_getD (fun i b => b && !(inSelection ebounds (SelectionSpec.range lo hi) i)) mask 0 i h
  · have := markMask_getD (fun i b => b || inSelection ebounds SelectionSpec.all i) mask 0 i h
    simpa [select, inSelection] using this

/-- Witness for C5 on a concrete two-channel detector: selecting channels 1 to
1, excluding them again, resetting with all, and an interleaved call list that
does not touch channel 0. -/
theorem selection_calls_cumulative_witness :
    (select [((1 : ℚ), 2), (2, 3)] (SelectionSpec.range (Bound.channel 1) (Bound.channel 1))
        [false, false]).getD 0 false =
      (([false, false] : List Bool).getD 0 false ||
        inSelection [((1 : ℚ), 2), (2, 3)]
          (SelectionSpec.range (Bound.channel 1) (Bound.channel 1)) 0) ∧
    (exclude [((1 : ℚ), 2), (2, 3)] (SelectionSpec.range (Bound.channel 1) (Bound.channel 1))
        [false, false]).getD 0 false =
      (([false, false] : List Bool).getD 0 false &&
        !(inSelection [((1 : ℚ), 2), (2, 3)]
          (SelectionSpec.range (Bound.channel 1) (Bound.channel 1)) 0)) ∧
    (select [((1 : ℚ), 2), (2, 3)] SelectionSpec.all [false, false]).getD 0 false = true ∧
    ((∀ c ∈ [SelectionCall.selectCall
        (SelectionSpec.range (Bound.channel 1) (Bound.channel 1))],
        callTouches [((1 : ℚ), 2), (2, 3)] c 0 = false) →
      (applyCalls [((1 : ℚ), 2), (2, 3)]
        [SelectionCall.selectCall (SelectionSpec.range (Bound.channel 1) (Bound.channel 1))]
        [false, false]).getD 0 false = ([false, false] : List Bool).getD 0 false) :=
  selection_calls_cumulative [((1 : ℚ), 2), (2, 3)] (Bound.channel 1) (Bound.channel 1)
    [false, false] 0
    [SelectionCall.selectCall (SelectionSpec.range (Bound.channel 1) (Bound.channel 1))]
    (by norm_num)

theorem firstMin_le_getElem (x : ℚ) :
    ∀ (eb : List (ℚ × ℚ)), List.Chain' (fun p q => p.2 ≤ q.1) eb →
      (∀ p ∈ eb, p.1 < p.2) →
      (∀ q ∈ eb.head?, x ≤ q.1) →
      ∀ j (hj : j < eb.length), x ≤ (eb[j]).1 := by
  intro eb
  induction eb with
  | nil => intro _ _ _ j hj; simp at hj
  | cons q rest ih =>
    intro hch hval hx j hj
    obtain ⟨hhead, htail⟩ := List.chain'_cons'.mp hch
    match j with
    | 0 =>
      simpa using hx q rfl
    | j + 1 =>
      have hj2 : j < rest.length := by simpa using hj
      have hq : x ≤ q.1 := hx q rfl
      have hqv : q.1 < q.2 := hval q (List.mem_cons_self _ _)
      have hx2 : ∀ q2 ∈ rest.head?, x ≤ q2.1 := by
        intro q2 hq2
        have := hhead q2 hq2
        linarith
      have := ih htail (fun p hp => hval p (List.mem_cons_of_mem _ hp)) hx2 j hj2
      simpa using this

theorem channelOfEnergy_eq :
    ∀ (eb : List (ℚ × ℚ)) (e : ℚ) (j : ℕ) (hj : j < eb.length),
      List.Chain' (fun p q => p.2 ≤ q.1) eb →
      (∀ p ∈ eb, p.1 < p.2) →
      (eb[j]).1 ≤ e → e < (eb[j]).2 →
      channelOfEnergy eb e = j := by
  intro eb
  induction eb with
  | nil => intro e j hj; simp at hj
  | cons p rest ih =>
    intro e j hj hch hval h1 h2
    obtain ⟨hhead, htail⟩ := List.chain'_cons'.mp hch
    match j with
    | 0 =>
      simp only [List.getElem_cons_zero] at h1 h2
      simp [channelOfEnergy, h1, h2]
    | j + 1 =>
      have hj2 : j < rest.length := by simpa using hj
      simp only [List.getElem_cons_succ] at h1 h2
      have hple : p.2 ≤ (rest[j]).1 :=
        firstMin_le_getElem p.2 rest htail
          (fun q hq => hval q (List.mem_cons_of_mem _ hq)) hhead j hj2
      have hnot : ¬(p.1 ≤ e ∧ e < p.2) := by
        rintro ⟨_, hlt⟩
        linarith
      have := ih e j hj2 htail (fun q hq => hval q (List.mem_cons_of_mem _ hq)) h1 h2
      simp [channelOfEnergy, hnot, this]

/-- C10: a selection range may mix an energy bound and a channel bound: for a
detector with valid, ordered channel boundaries, the energy endpoint is
resolved to the channel containing that energy, the channel endpoint is used as
given, and a select call of the mixed range (in either order) unions exactly
the channels between the two resolved endpoints into the active mask. -/
theorem mixed_selection_bounds (ebounds : List (ℚ × ℚ)) (e : ℚ) (c j i : ℕ)
    (mask : List Bool) (hj : j < ebounds.length)
    (hch : List.Chain' (fun p q => p.2 ≤ q.1) ebounds)
    (hval : ∀ p ∈ ebounds, p.1 < p.2)
    (h1 : (ebounds[j]).1 ≤ e) (h2 : e < (ebounds[j]).2)
    (hi : i < mask.length) :
    resolveBound ebounds (Bound.energy e) = j ∧
    resolveBound ebounds (Bound.channel c) = c ∧
    (select ebounds (SelectionSpec.range (Bound.energy e) (Bound.channel c)) mask).getD i false =
      (mask.getD i false || (decide (j ≤ i) && decide (i ≤ c))) ∧
    (select ebounds (SelectionSpec.range (Bound.channel c) (Bound.energy e)) mask).getD i false =
      (mask.getD i false || (decide (c ≤ i) && decide (i ≤ j))) := by
  have hcoe : channelOfEnergy ebounds e = j :=
    channelOfEnergy_eq ebounds e j hj hch hval h1 h2
  refine ⟨hcoe, rfl, ?_, ?_⟩
  · have := markMask_getD
      (fun i b => b ||
        inSelection ebounds (SelectionSpec.range (Bound.energy e) (Bound.channel c)) i)
      mask 0 i hi
    simpa [select, inSelection, resolveBound, hcoe] using this
  · have := markMask_getD
      (fun i b => b ||
        inSelection ebounds (SelectionSpec.range (Bound.channel c) (Bound.energy e)) i)
      mask 0 i hi
    simpa [select, inSelection, resolveBound, hcoe] using this

/-- Witness for C10 on a three-channel detector with boundaries 1-2, 2-3, 3-4:
the energy 5/2 resolves to channel 1 and the mixed ranges behave as stated at
channel 2 of a three-channel mask. -/
theorem mixed_selection_bounds_witness :
    (1 < ([((1 : ℚ), 2), (2, 3), (3, 4)] : List (ℚ × ℚ)).length) ∧
    (resolveBound [((1 : ℚ), 2), (2, 3), (3, 4)] (Bound.energy (5 / 2)) = 1 ∧
    resolveBound [((1 : ℚ), 2), (2, 3), (3, 4)] (Bound.channel 2) = 2 ∧
    (select [((1 : ℚ), 2), (2, 3), (3, 4)]
        (SelectionSpec.range (Bound.energy (5 / 2)) (Bound.channel 2))
        [false, false, false]).getD 2 false =
      (([false, false, false] : List Bool).getD 2 false ||
        (decide (1 ≤ 2) && decide (2 ≤ 2))) ∧
    (select [((1 : ℚ), 2), (2, 3), (3, 4)]
        (SelectionSpec.range (Bound.channel 2) (Bound.energy (5 / 2)))
        [false, false, false]).getD 2 false =
      (([false, false, false] : List Bool).getD 2 false ||
        (decide (2 ≤ 2) && decide (2 ≤ 1)))) :=
  ⟨by norm_num,
   mixed_selection_bounds [((1 : ℚ), 2), (2, 3), (3, 4)] (5 / 2) 2 1 2
    [false, false, false] (by norm_num)
    (by norm_num [List.chain'_cons, List.chain'_singleton])
    (by norm_num) (by norm_num) (by norm_num) (by norm_num)⟩

/-- Statistical type of a spectrum (spec section 3). -/
inductive Statistic where
  | poisson
  | gaussian
deriving DecidableEq

/-- Modelled from the spec: the spectrum container: counts per channel,
optional per-channel errors, exposure, and statistical type (spec section 3).
The library code is not in the repository source. -/
structure Spectrum where
  counts : List ℚ
  count_errors : Option (List ℚ)
  exposure : ℚ
  statistic : Statistic
deriving DecidableEq

/-- Modelled from the spec and the synthetic-spectra notebook:
SpectrumLike.from_function builds a spectrum whose statistical type is inferred
from the presence of the error array: no source_errors gives a Poisson
spectrum, per-channel source_errors give a Gaussian spectrum. -/
def from_function (counts : List ℚ) (source_errors : Option (List ℚ)) (exposure : ℚ) :
    Spectrum :=
  { counts := counts
    count_errors := source_errors
    exposure := exposure
    statistic :=
      match source_errors with
      | none => Statistic.poisson
      | some _ => Statistic.gaussian }

/-- The four-way (plus Gaussian) closed-form likelihood dispatch of the
likelihood selector (spec section 4.2). -/
inductive LikelihoodForm where
  | poissonProfile
  | poissonPoisson
  | poissonGaussian
  | poissonModeledBkg
  | gaussianForm
deriving DecidableEq

/-- Modelled from the spec: the fixed dispatch table of the likelihood
selector, resolved once at construction from the statistical types of total
and background spectra and whether a background model plugin is attached
(spec section 4.2). -/
def select_likelihood (total : Statistic) (bkg : Option Statistic) (bkgModeled : Bool) :
    LikelihoodForm :=
  match total with
  | .gaussian => .gaussianForm
  | .poisson =>
    if bkgModeled then .poissonModeledBkg
    else
      match bkg with
      | none => .poissonProfile
      | some .poisson => .poissonPoisson
      | some .gaussian => .poissonGaussian

/-- C9: at construction via SpectrumLike.from_function the statistical type is
inferred from the presence of error arrays, not passed as a tag: omitting
source_errors yields a Poisson spectrum, supplying per-channel source_errors
yields a Gaussian spectrum, and the likelihood dispatch selected at
construction follows that inference (profile Poisson form without errors,
Gaussian form with errors, for a spectrum with no background). -/
theorem from_function_statistic_inference (counts errs : List ℚ) (exposure : ℚ) :
    (from_function counts none exposure).statistic = Statistic.poisson ∧
    (from_function counts (some errs) exposure).statistic = Statistic.gaussian ∧
    select_likelihood (from_function counts none exposure).statistic none false =
      LikelihoodForm.poissonProfile ∧
    select_likelihood (from_function counts (some errs) exposure).statistic none false =
      LikelihoodForm.gaussianForm :=
  ⟨rfl, rfl, rfl, rfl⟩

/-- Index of the first negative entry of the sampled flux vector, if any. -/
def firstNegativeIdx : List ℚ → Option ℕ
  | [] => none
  | x :: rest => if x < 0 then some 0 else (firstNegativeIdx rest).map (· + 1)

/-- Inner product of a response row with the sampled flux vector. -/
def dotProd (xs ys : List ℚ) : ℚ :=
  (List.zipWith (fun a b => a * b) xs ys).sum

/-- Modelled from the spec: fold samples the flux function on the true-energy
grid, applies the dispersion kernel as a matrix-vector product scaled by the
exposure, and returns expected counts per channel; a negative flux sample is a
model-error condition surfaced to the caller as a recoverable error carrying
the offending index, never silently clipped (spec sections 4.1 and 7). -/
def fold (kernel : List (List ℚ)) (exposure : ℚ) (fluxSamples : List ℚ) :
    Except ℕ (List ℚ) :=
  match firstNegativeIdx fluxSamples with
  | some i => Except.error i
  | none => Except.ok (kernel.map (fun row => dotProd row fluxSamples * exposure))

theorem firstNegativeIdx_eq_none (xs : List ℚ) (h : ∀ x ∈ xs, 0 ≤ x) :
    firstNegativeIdx xs = none := by
  induction xs with
  | nil => rfl
  | cons x rest ih =>
    have hx : ¬x < 0 := not_lt.mpr (h x (List.mem_cons_self _ _))
    have hr := ih (fun y hy => h y (List.mem_cons_of_mem _ hy))
    simp [firstNegativeIdx, hx, hr]

theorem firstNegativeIdx_spec (xs : List ℚ) :
    ∀ i, firstNegativeIdx xs = some i → i < xs.length ∧ xs.getD i 0 < 0 := by
  induction xs with
  | nil => intro i hi; simp [firstNegativeIdx] at hi
  | cons x rest ih =>
    intro i hi
    by_cases hx : x < 0
    · simp only [firstNegativeIdx, if_pos hx, Option.some.injEq] at hi
      subst hi
      exact ⟨by simp, by simpa using hx⟩
    · simp only [firstNegativeIdx, if_neg hx, Option.map_eq_some'] at hi
      obtain ⟨j, hj, rfl⟩ := hi
      obtain ⟨h1, h2⟩ := ih j hj
      exact ⟨by simpa using h1, by simpa using h2⟩

theorem firstNegativeIdx_none_nonneg (xs : List ℚ) (h : firstNegativeIdx xs = none) :
    ∀ x ∈ xs, 0 ≤ x := by
  induction xs with
  | nil => intro x hx; simp at hx
  | cons z rest ih =>
    intro x hx
    by_cases hz : z < 0
    · simp [firstNegativeIdx, hz] at h
    · simp only [firstNegativeIdx, if_neg hz, Option.map_eq_none'] at h
      rcases List.mem_cons.mp hx with rfl | hx2
      · exact not_lt.mp hz
      · exact ih h x hx2

theorem dotProd_nonneg (xs ys : List ℚ) (hx : ∀ a ∈ xs, 0 ≤ a) (hy : ∀ b ∈ ys, 0 ≤ b) :
    0 ≤ dotProd xs ys := by
  apply List.sum_nonneg
  intro z hz
  rw [List.mem_iff_get] at hz
  obtain ⟨n, rfl⟩ := hz
  rw [List.get_zipWith]
  exact mul_nonneg (hx _ (List.get_mem _ _ _)) (hy _ (List.get_mem _ _ _))

/-- C8: for a response kernel with nonnegative entries and nonnegative
exposure, folding a flux that is nonnegative everywhere on the true-energy
grid succeeds and returns nonnegative predicted counts in every channel; and
whenever the flux is negative somewhere on the grid, fold surfaces the
condition as a recoverable error naming an offending index at which the flux
is indeed negative, never an ok result with clipped values. -/
theorem fold_nonneg_or_error (kernel : List (List ℚ)) (exposure : ℚ) (flux : List ℚ)
    (hker : ∀ row ∈ kernel, ∀ a ∈ row, 0 ≤ a) (hexp : 0 ≤ exposure) :
    ((∀ x ∈ flux, 0 ≤ x) →
      ∃ out, fold kernel exposure flux = Except.ok out ∧
        out.length = kernel.length ∧ ∀ y ∈ out, 0 ≤ y) ∧
    ((∃ x ∈ flux, x < 0) →
      ∃ i, fold kernel exposure flux = Except.error i ∧
        i < flux.length ∧ flux.getD i 0 < 0) := by
  constructor
  · intro hflux
    refine ⟨kernel.map (fun row => dotProd row flux * exposure), ?_, by simp, ?_⟩
    · simp [fold, firstNegativeIdx_eq_none flux hflux]
    · intro y hy
      simp only [List.mem_map] at hy
      obtain ⟨row, hrow, rfl⟩ := hy
      exact mul_nonneg (dotProd_nonneg row flux (hker row hrow) hflux) hexp
  · intro hneg
    have hsome : firstNegativeIdx flux ≠ none := by
      intro hnone
      obtain ⟨x, hx, hxneg⟩ := hneg
      exact absurd (firstNegativeIdx_none_nonneg flux hnone x hx) (not_le.mpr hxneg)
    obtain ⟨i, hi⟩ := Option.ne_none_iff_exists.mp hsome
    obtain ⟨h1, h2⟩ := firstNegativeIdx_spec flux i hi.symm
    exact ⟨i, by simp [fold, hi.symm], h1, h2⟩

/-- Witness for C8: with the identity-like kernel [[1, 0], [0, 2]] and unit
exposure, the nonnegative flux [2, 3] folds to nonnegative counts, while the
flux [2, -1] is rejected with the offending index. -/
theorem fold_nonneg_or_error_witness :
    (∃ out, fold [[1, 0], [0, 2]] 1 [2, 3] = Except.ok out ∧
      out.length = ([[1, 0], [0, 2]] : List (List ℚ)).length ∧ ∀ y ∈ out, 0 ≤ y) ∧
    (∃ i, fold [[1, 0], [0, 2]] 1 [2, -1] = Except.error i ∧
      i < ([2, -1] : List ℚ).length ∧ ([2, -1] : List ℚ).getD i 0 < 0) :=
  ⟨(fold_nonneg_or_error [[1, 0], [0, 2]] 1 [2, 3]
      (by norm_num) (by norm_num)).1 (by norm_num),
   (fold_nonneg_or_error [[1, 0], [0, 2]] 1 [2, -1]
      (by norm_num) (by norm_num)).2 ⟨-1, by norm_num⟩⟩

/-- Modelled from the spec: a full plugin instance: the observed spectrum, an
optional background spectrum, the response kernel, the channel boundaries, the
active-channel mask, and whether a background model plugin is attached. -/
structure SpectrumPlugin where
  observation : Spectrum
  background : Option Spectrum
  response : List (List ℚ)
  ebounds : List (ℚ × ℚ)
  mask : List Bool
  has_background_model : Bool
deriving DecidableEq

/-- The statistical configuration the likelihood selector dispatches on,
resolved from the plugin's spectra (spec section 4.2). -/
def likelihood_config (p : SpectrumPlugin) : LikelihoodForm :=
  select_likelihood p.observation.statistic (p.background.map (fun b => b.statistic))
    p.has_background_model

/-- Modelled from the spec: get_simulated_dataset returns a new plugin holding
the Monte Carlo drawn total counts (and drawn background counts when a
background spectrum is present), and reuses everything else of the originating
plugin; the draw itself is abstracted by the drawn counts vectors. -/
def get_simulated_dataset (p : SpectrumPlugin) (drawnCounts drawnBkg : List ℚ) :
    SpectrumPlugin :=
  { p with
    observation := { p.observation with counts := drawnCounts }
    background := p.background.map (fun b => { b with counts := drawnBkg }) }

/-- C6: get_simulated_dataset returns a new plugin whose response, channel
boundaries, active-channel mask, exposure, statistical types, error arrays,
background configuration and background-model attachment are identical to the
originating plugin, so the likelihood dispatch of the synthetic plugin is the
same; only the observed counts (and the companion background counts when a
background spectrum is present) are replaced by the drawn values. -/
theorem get_simulated_dataset_frame (p : SpectrumPlugin) (dc db : List ℚ) :
    (get_simulated_dataset p dc db).response = p.response ∧
    (get_simulated_dataset p dc db).ebounds = p.ebounds ∧
    (get_simulated_dataset p dc db).mask = p.mask ∧
    (get_simulated_dataset p dc db).observation.exposure = p.observation.exposure ∧
    (get_simulated_dataset p dc db).observation.statistic = p.observation.statistic ∧
    (get_simulated_dataset p dc db).observation.count_errors =
      p.observation.count_errors ∧
    (get_simulated_dataset p dc db).background.isSome = p.background.isSome ∧
    (get_simulated_dataset p dc db).background.map (fun b => b.exposure) =
      p.background.map (fun b => b.exposure) ∧
    (get_simulated_dataset p dc db).background.map (fun b => b.statistic) =
      p.background.map (fun b => b.statistic) ∧
    (get_simulated_dataset p dc db).background.map (fun b => b.count_errors) =
      p.background.map (fun b => b.count_errors) ∧
    (get_simulated_dataset p dc db).has_background_model = p.has_background_model ∧
    likelihood_config (get_simulated_dataset p dc db) = likelihood_config p ∧
    (get_simulated_dataset p dc db).observation.counts = dc ∧
    (get_simulated_dataset p dc db).background.map (fun b => b.counts) =
      p.background.map (fun _ => db) := by
  cases p with
  | mk obs bkg resp eb mask hbm =>
    cases bkg with
    | none =>
      refine ⟨rfl, rfl, rfl, rfl, rfl, rfl, rfl, rfl, rfl, rfl, rfl, rfl, rfl, rfl⟩
    | some b =>
      refine ⟨rfl, rfl, rfl, rfl, rfl, rfl, rfl, rfl, rfl, rfl, rfl, rfl, rfl, rfl⟩

theorem xlogy_one (x : ℝ) : xlogy x 1 = 0 := by
  simp [xlogy]

/-- Modelled from the spec and the point-source notebook: the bracketed sum of
the Li and Ma (1983) likelihood-ratio formula, 2 (N_on log[(1+a)/a N_on/(N_on+N_off)]
+ N_off log[(1+a) N_off/(N_on+N_off)]) with a the exposure-ratio, using the
limiting convention that a zero count contributes no log term. -/
noncomputable def liMaArg (non noff alpha : ℝ) : ℝ :=
  2 * (xlogy non ((1 + alpha) / alpha * (non / (non + noff))) +
       xlogy noff ((1 + alpha) * (noff / (non + noff))))

/-- Modelled from the spec: the Li and Ma significance is the square root of
the likelihood-ratio statistic, negated when the on-source rate is below the
off-source rate (spec section 4.5 sign convention). -/
noncomputable def significance (non noff ton toff : ℝ) : ℝ :=
  (if noff * ton ≤ non * toff then 1 else -1) * Real.sqrt (liMaArg non noff (ton / toff))

theorem gibbs_ge (x y : ℝ) (hx : 0 ≤ x) (hy : 0 < y) : x - y ≤ xlogy x (x / y) := by
  rcases eq_or_lt_of_le hx with h0 | hpos
  · rw [← h0, xlogy_zero_left]
    linarith
  · rw [xlogy_of_ne x _ (ne_of_gt hpos)]
    have hlog := Real.log_le_sub_one_of_pos (div_pos hy hpos)
    have hlogeq : Real.log (y / x) = -Real.log (x / y) := by
      rw [← Real.log_inv]
      congr 1
      field_simp
    rw [hlogeq] at hlog
    have hmul := mul_le_mul_of_nonneg_left hlog (le_of_lt hpos)
    have hxne : x ≠ 0 := ne_of_gt hpos
    have hexp : x * (y / x - 1) = y - x := by field_simp
    nlinarith [hmul]

theorem gibbs_gt (x y : ℝ) (hx : 0 ≤ x) (hy : 0 < y) (hne : x ≠ y) :
    x - y < xlogy x (x / y) := by
  rcases eq_or_lt_of_le hx with h0 | hpos
  · rw [← h0, xlogy_zero_left]
    linarith
  · rw [xlogy_of_ne x _ (ne_of_gt hpos)]
    have hratio : y / x ≠ 1 := by
      intro h
      exact hne ((div_eq_one_iff_eq (ne_of_gt hpos)).mp h).symm
    have hlog := Real.log_lt_sub_one_of_pos (div_pos hy hpos) hratio
    have hlogeq : Real.log (y / x) = -Real.log (x / y) := by
      rw [← Real.log_inv]
      congr 1
      field_simp
    rw [hlogeq] at hlog
    have hmul := (mul_lt_mul_left hpos).mpr hlog
    have hxne : x ≠ 0 := ne_of_gt hpos
    have hexp : x * (y / x - 1) = y - x := by field_simp
    nlinarith [hmul]

theorem liMaArg_rewrite (non noff alpha : ℝ) (ha : 0 < alpha) (hs : 0 < non + noff) :
    liMaArg non noff alpha =
      2 * (xlogy non (non / (alpha * (non + noff) / (1 + alpha))) +
           xlogy noff (noff / ((non + noff) / (1 + alpha)))) := by
  have hane : alpha ≠ 0 := ne_of_gt ha
  have hsne : non + noff ≠ 0 := ne_of_gt hs
  have h1a : (1 : ℝ) + alpha ≠ 0 := by positivity
  have e1 : (1 + alpha) / alpha * (non / (non + noff)) =
      non / (alpha * (non + noff) / (1 + alpha)) := by
    field_simp
    ring
  have e2 : (1 + alpha) * (noff / (non + noff)) = noff / ((non + noff) / (1 + alpha)) := by
    field_simp
    ring
  rw [liMaArg, e1, e2]

theorem liMaArg_nonneg (non noff alpha : ℝ)
    (h1 : 0 ≤ non) (h2 : 0 ≤ noff) (ha : 0 < alpha) :
    0 ≤ liMaArg non noff alpha := by
  rcases eq_or_lt_of_le (by positivity : (0 : ℝ) ≤ non + noff) with hs | hs
  · have hnon : non = 0 := by linarith
    have hnoff : noff = 0 := by linarith
    simp [liMaArg, hnon, hnoff, xlogy_zero_left]
  · have h1a : (0 : ℝ) < 1 + alpha := by positivity
    have hyon : 0 < alpha * (non + noff) / (1 + alpha) := by positivity
    have hyoff : 0 < (non + noff) / (1 + alpha) := by positivity
    have g1 := gibbs_ge non (alpha * (non + noff) / (1 + alpha)) h1 hyon
    have g2 := gibbs_ge noff ((non + noff) / (1 + alpha)) h2 hyoff
    have hsum : alpha * (non + noff) / (1 + alpha) + (non + noff) / (1 + alpha) =
        non + noff := by
      field_simp
      ring
    rw [liMaArg_rewrite non noff alpha ha hs]
    nlinarith [g1, g2]

theorem liMaArg_pos (non noff alpha : ℝ)
    (h1 : 0 ≤ non) (h2 : 0 ≤ noff) (ha : 0 < alpha) (hne : non ≠ alpha * noff) :
    0 < liMaArg non noff alpha := by
  rcases eq_or_lt_of_le (by positivity : (0 : ℝ) ≤ non + noff) with hs | hs
  · exfalso
    apply hne
    have hnon : non = 0 := by linarith
    have hnoff : noff = 0 := by linarith
    rw [hnon, hnoff]
    ring
  · have h1a : (0 : ℝ) < 1 + alpha := by positivity
    have hyon : 0 < alpha * (non + noff) / (1 + alpha) := by positivity
    have hyoff : 0 < (non + noff) / (1 + alpha) := by positivity
    have hne1 : non ≠ alpha * (non + noff) / (1 + alpha) := by
      intro h
      apply hne
      have h1ane : (1 : ℝ) + alpha ≠ 0 := ne_of_gt h1a
      field_simp at h
      linarith
    have hne2 : noff ≠ (non + noff) / (1 + alpha) := by
      intro h
      apply hne
      have h1ane : (1 : ℝ) + alpha ≠ 0 := ne_of_gt h1a
      field_simp at h
      linarith
    have g1 := gibbs_gt non (alpha * (non + noff) / (1 + alpha)) h1 hyon hne1
    have g2 := gibbs_gt noff ((non + noff) / (1 + alpha)) h2 hyoff hne2
    have hsum : alpha * (non + noff) / (1 + alpha) + (non + noff) / (1 + alpha) =
        non + noff := by
      field_simp
      ring
    rw [liMaArg_rewrite non noff alpha ha hs]
    nlinarith [g1, g2]

theorem liMaArg_eq_zero (non noff alpha : ℝ)
    (h2 : 0 ≤ noff) (ha : 0 < alpha) (heq : non = alpha * noff) :
    liMaArg non noff alpha = 0 := by
  rcases eq_or_lt_of_le h2 with h0 | hpos
  · have hnon : non = 0 := by rw [heq, ← h0]; ring
    simp [liMaArg, hnon, ← h0, xlogy_zero_left]
  · have hane : alpha ≠ 0 := ne_of_gt ha
    have hsne : non + noff ≠ 0 := by
      rw [heq]
      positivity
    have e1 : (1 + alpha) / alpha * (non / (non + noff)) = 1 := by
      rw [heq]
      have : alpha * noff + noff ≠ 0 := by positivity
      field_simp
      ring
    have e2 : (1 + alpha) * (noff / (non + noff)) = 1 := by
      rw [heq]
      have : alpha * noff + noff ≠ 0 := by positivity
      field_simp
      ring
    rw [liMaArg, e1, e2, xlogy_one, xlogy_one]
    ring

/-- C7: for nonnegative counts and positive exposures the Li and Ma
significance is defined without numerical error: the zero-count log terms take
their limiting value 0, the likelihood-ratio statistic under the square root
is never negative, and the sign of the significance follows the excess: it is
positive when the on-source rate exceeds the off-source rate, negative when it
is below it, and exactly zero when the two rates are equal. -/
theorem li_ma_significance_sign (non noff ton toff : ℝ)
    (h1 : 0 ≤ non) (h2 : 0 ≤ noff) (h3 : 0 < ton) (h4 : 0 < toff) :
    liMaArg 0 noff (ton / toff) =
      2 * xlogy noff ((1 + ton / toff) * (noff / (0 + noff))) ∧
    liMaArg non 0 (ton / toff) =
      2 * xlogy non ((1 + ton / toff) / (ton / toff) * (non / (non + 0))) ∧
    0 ≤ liMaArg non noff (ton / toff) ∧
    (noff / toff < non / ton → 0 < significance non noff ton toff) ∧
    (non / ton < noff / toff → significance non noff ton toff < 0) ∧
    (non / ton = noff / toff → significance non noff ton toff = 0) := by
  have halpha : 0 < ton / toff := div_pos h3 h4
  refine ⟨?_, ?_, liMaArg_nonneg non noff (ton / toff) h1 h2 halpha, ?_, ?_, ?_⟩
  · simp [liMaArg, xlogy_zero_left]
  · simp [liMaArg, xlogy_zero_left]
  · intro hlt
    have hcross : noff * ton < non * toff := (div_lt_div_iff h4 h3).mp hlt
    have hne : non ≠ ton / toff * noff := by
      intro h
      rw [h] at hcross
      have : ton / toff * noff * toff = noff * ton := by field_simp; ring
      linarith
    have hpos := liMaArg_pos non noff (ton / toff) h1 h2 halpha hne
    have hsq : 0 < Real.sqrt (liMaArg non noff (ton / toff)) := Real.sqrt_pos.mpr hpos
    rw [significance, if_pos (le_of_lt hcross)]
    linarith
  · intro hlt
    have hcross : non * toff < noff * ton := (div_lt_div_iff h3 h4).mp hlt
    have hne : non ≠ ton / toff * noff := by
      intro h
      rw [h] at hcross
      have : ton / toff * noff * toff = noff * ton := by field_simp; ring
      linarith
    have hpos := liMaArg_pos non noff (ton / toff) h1 h2 halpha hne
    have hsq : 0 < Real.sqrt (liMaArg non noff (ton / toff)) := Real.sqrt_pos.mpr hpos
    rw [significance, if_neg (not_le.mpr hcross)]
    linarith
  · intro heq
    have hcross : non * toff = noff * ton :=
      (div_eq_div_iff (ne_of_gt h3) (ne_of_gt h4)).mp heq
    have heq2 : non = ton / toff * noff := by
      field_simp
      linarith [hcross]
    have hzero := liMaArg_eq_zero non noff (ton / toff) h2 halpha heq2
    rw [significance, hzero, Real.sqrt_zero, mul_zero]

/-- Witness for C7 at 2 on-source counts against 1 off-source count with unit
exposures: the statistic is nonnegative, the excess gives a positive
significance, and the zero-count conventions hold. -/
theorem li_ma_significance_sign_witness :
    (0 : ℝ) ≤ 2 ∧ (0 : ℝ) ≤ 1 ∧ (0 : ℝ) < 1 ∧
    (liMaArg 0 1 ((1 : ℝ) / 1) =
      2 * xlogy 1 ((1 + (1 : ℝ) / 1) * (1 / ((0 : ℝ) + 1))) ∧
    liMaArg 2 0 ((1 : ℝ) / 1) =
      2 * xlogy 2 ((1 + (1 : ℝ) / 1) / ((1 : ℝ) / 1) * (2 / ((2 : ℝ) + 0))) ∧
    0 ≤ liMaArg 2 1 ((1 : ℝ) / 1) ∧
    ((1 : ℝ) / 1 < 2 / 1 → 0 < significance 2 1 1 1) ∧
    ((2 : ℝ) / 1 < 1 / 1 → significance 2 1 1 1 < 0) ∧
    ((2 : ℝ) / 1 = 1 / 1 → significance 2 1 1 1 = 0)) :=
  ⟨by norm_num, by norm_num, by norm_num,
   li_ma_significance_sign 2 1 1 1 (by norm_num) (by norm_num) (by norm_num) (by norm_num)⟩

end SpecModel
